import Mathlib

/-!
# git-sheets core: hashing and diff engine, shallowly embedded

This file embeds the core of the `git-sheets` library (`src/lib.rs`): the
`Table` data model, the hash engine (`TableHashes::compute` with its helpers
`hash_column`, `hash_row`, `hash_table`), `Snapshot::verify`, and the diff
engine (`SnapshotDiff::compute`), and proves the specified properties.

Modelling conventions:

* A SHA-256 digest is a pure function of the byte stream fed to the hasher.
  We model a digest as that input stream itself (`Digest := List Char`,
  standing for the UTF-8 byte sequence; UTF-8 encoding of a character
  sequence is injective and concatenation-compatible, so equality of
  concatenated byte streams coincides with equality of concatenated
  character streams).  Two digests are equal in the model iff the hashed
  streams are equal, which matches SHA-256 up to hash collisions: equal
  streams give equal digests unconditionally, and distinct streams give
  distinct digests under the ideal-hash (collision-freeness) reading that
  the specification's sensitivity properties presuppose.
* Rust's `HashMap<String, String>` keyed by header name is modelled as a
  function `String → Option Digest`; `insert` replaces the binding of the
  key, exactly like `HashMap::insert`.  A `HashMap` holds at most one entry
  per key, which the function model reflects inherently.
* `Vec<T>` is `List T`, `Option<T>` is `Option T`, `usize` is `Nat`;
  `row.get(idx)` is `row[idx]?`.
-/

/-- `Table` from `src/lib.rs`: headers, rows, optional primary-key column
indices. -/
structure Table where
  headers : List String
  rows : List (List String)
  primary_key : Option (List Nat)
  deriving DecidableEq, Repr

/-- A SHA-256 digest, modelled as the hasher's input stream (the
concatenated bytes fed through `hasher.update`), rendered here as the
corresponding character sequence. -/
abbrev Digest := List Char

/-- The result of one HashMap lookup. -/
abbrev HashMapStr := String → Option Digest

/-- `TableHashes` from `src/lib.rs`: whole-table digest, header-name-keyed
column digests, optional per-row digests. -/
structure TableHashes where
  table_hash : Digest
  header_hashes : HashMapStr
  row_hashes : Option (List Digest)

/-- `TableHashes::hash_column`: update with the header's bytes, then each
column value's bytes in row order. -/
def hash_column (header : String) (data : List String) : Digest :=
  header.data ++ (data.map String.data).flatten

/-- `TableHashes::hash_row`: update with each cell's bytes in order. -/
def hash_row (row : List String) : Digest :=
  (row.map String.data).flatten

/-- `TableHashes::hash_table`: update with every header's bytes in order,
then every cell's bytes in row-major order. -/
def hash_table (headers : List String) (rows : List (List String)) : Digest :=
  (headers.map String.data).flatten ++
    (rows.map (fun row => (row.map String.data).flatten)).flatten

/-- The column data extracted for header index `idx`:
`row.get(idx).map(|s| s.as_str()).unwrap_or("")` for each row. -/
def columnData (rows : List (List String)) (idx : Nat) : List String :=
  rows.map (fun row => row.getD idx "")

/-- `HashMap::insert`: replace any existing binding of `k` by `v`. -/
def hmInsert (m : HashMapStr) (k : String) (v : Digest) : HashMapStr :=
  fun q => if q = k then some v else m q

/-- The header-hash loop of `TableHashes::compute`: iterate over the headers
(carrying the enumeration index `idx`), inserting
`hash_column(header, column_data)` under the header's name. -/
def hashHeadersFrom (rows : List (List String)) : Nat → List String → HashMapStr → HashMapStr
  | _, [], m => m
  | idx, h :: rest, m =>
      hashHeadersFrom rows (idx + 1) rest
        (hmInsert m h (hash_column h (columnData rows idx)))

/-- `TableHashes::compute`: per-column hashes into a map keyed by header
name, the whole-table hash, and (always-`Some`) per-row hashes. -/
def TableHashes.compute (table : Table) : TableHashes :=
  { table_hash := hash_table table.headers table.rows
    header_hashes := hashHeadersFrom table.rows 0 table.headers (fun _ => none)
    row_hashes := some (table.rows.map hash_row) }

/-- `Dependency` from `src/lib.rs` (the path is kept as an optional
string). -/
structure Dependency where
  name : String
  path : Option String
  hash : String

/-- `Snapshot` from `src/lib.rs`.  The timestamp is an epoch-seconds
integer; it plays no role in hashing, verification or diffing. -/
structure Snapshot where
  id : String
  timestamp : Int
  message : Option String
  table : Table
  hashes : TableHashes
  dependencies : List Dependency

/-- `Snapshot::verify`: recompute the hashes of the embedded table and
compare the recomputed table-level digest with the stored one. -/
def Snapshot.verify (s : Snapshot) : Bool :=
  decide ((TableHashes.compute s.table).table_hash = s.hashes.table_hash)

/-- Changing one cell of a table: replace the cell at row `r`, column `c`
by `v` (the operation the sensitivity property quantifies over; rows and
headers are otherwise untouched). -/
def setCell (t : Table) (r c : Nat) (v : String) : Table :=
  { t with rows := t.rows.set r ((t.rows.getD r []).set c v) }

example : (TableHashes.compute ⟨["A", "B"], [["x", "y"]], none⟩).table_hash
    = "ABxy".data := by decide

example : (TableHashes.compute ⟨["A", "B"], [["x", "y"]], none⟩).header_hashes "B"
    = some "By".data := by decide

example : (TableHashes.compute ⟨["A", "A"], [["x", "y"]], none⟩).header_hashes "A"
    = some "Ay".data := by decide

/-- `Change` from `src/lib.rs`: the five structural-change variants emitted
by the diff engine. -/
inductive Change where
  | RowAdded (index : Nat) (data : List String)
  | RowRemoved (index : Nat) (data : List String)
  | CellChanged (row : Nat) (col : Nat) (old : String) (new : String)
  | ColumnAdded (name : String) (index : Nat)
  | ColumnRemoved (name : String) (index : Nat)
  deriving DecidableEq, Repr

/-- `DiffSummary` from `src/lib.rs`: the five aggregate counters. -/
structure DiffSummary where
  rows_added : Nat
  rows_removed : Nat
  rows_modified : Nat
  columns_added : Nat
  columns_removed : Nat
  deriving DecidableEq, Repr

/-- `SnapshotDiff` from `src/lib.rs`. -/
structure SnapshotDiff where
  from_id : String
  to_id : String
  summary : DiffSummary
  changes : List Change

/-- The mutable state threaded through `SnapshotDiff::compute`: the changes
vector and the summary counters. -/
structure DiffState where
  changes : List Change
  summary : DiffSummary

/-- One iteration of the column-added loop: if the target header is absent
from the source header set, push `ColumnAdded` (target index) and bump the
counter. -/
def colAddedStep (fromHeaders : List String) (st : DiffState) (p : Nat × String) : DiffState :=
  if p.2 ∈ fromHeaders then st
  else
    { changes := st.changes ++ [Change.ColumnAdded p.2 p.1]
      summary := { st.summary with columns_added := st.summary.columns_added + 1 } }

/-- One iteration of the column-removed loop: if the source header is absent
from the target header set, push `ColumnRemoved` (source index) and bump the
counter. -/
def colRemovedStep (toHeaders : List String) (st : DiffState) (p : Nat × String) : DiffState :=
  if p.2 ∈ toHeaders then st
  else
    { changes := st.changes ++ [Change.ColumnRemoved p.2 p.1]
      summary := { st.summary with columns_removed := st.summary.columns_removed + 1 } }

/-- The inner cell loop of the modified-row branch:
`from_row.iter().zip(to_row.iter()).enumerate()`, pushing one `CellChanged`
per position whose two cells differ.  `col` carries the enumeration
index. -/
def cellChangesAux (i : Nat) : Nat → List (String × String) → List Change
  | _, [] => []
  | col, (old, new) :: rest =>
      if old ≠ new then
        Change.CellChanged i col old new :: cellChangesAux i (col + 1) rest
      else cellChangesAux i (col + 1) rest

/-- The `CellChanged` records the diff engine emits for row `i` when both
rows exist and differ. -/
def cellChanges (i : Nat) (fromRow toRow : List String) : List Change :=
  cellChangesAux i 0 (fromRow.zip toRow)

/-- One iteration of the row loop of `SnapshotDiff::compute`, at row index
`i`.  The `(none, none)` case is `unreachable!()` in the source (the loop
runs `i` below the larger row count); modelling it as a no-op never fires
inside the loop's range. -/
def rowStep (fromRows toRows : List (List String)) (st : DiffState) (i : Nat) : DiffState :=
  match fromRows[i]?, toRows[i]? with
  | none, some row =>
      { changes := st.changes ++ [Change.RowAdded i row]
        summary := { st.summary with rows_added := st.summary.rows_added + 1 } }
  | some row, none =>
      { changes := st.changes ++ [Change.RowRemoved i row]
        summary := { st.summary with rows_removed := st.summary.rows_removed + 1 } }
  | some fromRow, some toRow =>
      if fromRow ≠ toRow then
        { changes := st.changes ++ cellChanges i fromRow toRow
          summary := { st.summary with rows_modified := st.summary.rows_modified + 1 } }
      else st
  | none, none => st

/-- `SnapshotDiff::compute`: column-added loop over the target headers,
column-removed loop over the source headers, then the positional row loop
over `0..max_rows`.  `HashSet::contains` on a set built from a header list
is list membership. -/
def SnapshotDiff.compute (fromS toS : Snapshot) : SnapshotDiff :=
  let st0 : DiffState := ⟨[], ⟨0, 0, 0, 0, 0⟩⟩
  let st1 := toS.table.headers.enum.foldl (colAddedStep fromS.table.headers) st0
  let st2 := fromS.table.headers.enum.foldl (colRemovedStep toS.table.headers) st1
  let maxRows := max fromS.table.rows.length toS.table.rows.length
  let st3 := (List.range maxRows).foldl (rowStep fromS.table.rows toS.table.rows) st2
  { from_id := fromS.id
    to_id := toS.id
    summary := st3.summary
    changes := st3.changes }

/-! ## Hash-engine lemmas -/

/-- Replacing position `r` (holding `y`) by `x` with `f x ≠ f y` changes the
concatenation of the images under `f`. -/
theorem flatten_map_set_ne {α β : Type} (f : α → List β) :
    ∀ (l : List α) (r : Nat) (x y : α), l[r]? = some y → f x ≠ f y →
      ((l.set r x).map f).flatten ≠ (l.map f).flatten
  | [], r, x, y, h, _ => by simp at h
  | a :: l, 0, x, y, h, hf => by
    simp only [List.getElem?_cons_zero, Option.some.injEq] at h
    subst h
    simp only [List.set_cons_zero, List.map_cons, List.flatten_cons]
    intro heq
    exact hf (List.append_cancel_right heq)
  | a :: l, r + 1, x, y, h, hf => by
    simp only [List.getElem?_cons_succ] at h
    simp only [List.set_cons_succ, List.map_cons, List.flatten_cons]
    intro heq
    exact flatten_map_set_ne f l r x y h hf (List.append_cancel_left heq)

/-- Replacing position `r` by a value whose `f`-image equals the stored
one's leaves the concatenation of images unchanged (in fact the mapped list
itself). -/
theorem map_set_eq_of_getElem? {α β : Type} (f : α → β) (l : List α) (r : Nat) (x y : α)
    (h : l[r]? = some y) (hf : f x = f y) :
    (l.set r x).map f = l.map f := by
  apply List.ext_getElem?
  intro n
  by_cases hn : r = n
  · subst hn
    have hr : r < l.length := (List.getElem?_eq_some.mp h).1
    rw [List.map_set, List.getElem?_set_self (by simpa using hr), hf,
      List.getElem?_map, h]
    rfl
  · rw [List.map_set, List.getElem?_set_ne hn]

/-- Strings with distinct values have distinct byte streams. -/
theorem data_ne_of_ne {s t : String} (h : s ≠ t) : s.data ≠ t.data :=
  fun hd => h (String.ext hd)

/-- The index of the last occurrence of `k` in a header list (the column
whose digest survives the `HashMap::insert` overwrites). -/
def lastOcc : List String → String → Option Nat
  | [], _ => none
  | h :: rest, k =>
      match lastOcc rest k with
      | some d => some (d + 1)
      | none => if h = k then some 0 else none

/-- If `k` occurs nowhere, `lastOcc` is `none`. -/
theorem lastOcc_eq_none :
    ∀ {hs : List String} {k : String}, (∀ (d : Nat), hs[d]? ≠ some k) → lastOcc hs k = none
  | [], _, _ => rfl
  | h :: rest, k, hnone => by
    have h0 : ¬h = k := fun hh => hnone 0 (by simp [hh])
    have hr : ∀ (d : Nat), rest[d]? ≠ some k := fun d => by
      have := hnone (d + 1)
      simpa using this
    simp [lastOcc, lastOcc_eq_none hr, h0]

/-- If `k` occurs at `j` and nowhere later, `lastOcc` is `j`. -/
theorem lastOcc_eq_some :
    ∀ {hs : List String} {j : Nat} {k : String},
      hs[j]? = some k → (∀ d, j < d → hs[d]? ≠ some k) → lastOcc hs k = some j
  | [], j, k, hj, _ => by simp at hj
  | h :: rest, 0, k, hj, hlast => by
    simp only [List.getElem?_cons_zero, Option.some.injEq] at hj
    have hr : ∀ (d : Nat), rest[d]? ≠ some k := fun d => by
      have := hlast (d + 1) (Nat.succ_pos d)
      simpa using this
    simp [lastOcc, lastOcc_eq_none hr, hj]
  | h :: rest, j + 1, k, hj, hlast => by
    simp only [List.getElem?_cons_succ] at hj
    have hr : ∀ d, j < d → rest[d]? ≠ some k := fun d hd => by
      have := hlast (d + 1) (Nat.succ_lt_succ hd)
      simpa using this
    simp [lastOcc, lastOcc_eq_some hj hr]

/-- If `lastOcc` returns `d`, then `k` is the header at index `d`. -/
theorem lastOcc_mem :
    ∀ {hs : List String} {k : String} {d : Nat}, lastOcc hs k = some d → hs[d]? = some k
  | [], k, d, h => by simp [lastOcc] at h
  | a :: rest, k, d, h => by
    rw [lastOcc] at h
    rcases hr : lastOcc rest k with _ | d'
    · rw [hr] at h
      by_cases ha : a = k
      · subst ha
        rw [if_pos rfl] at h
        cases h
        simp
      · simp [ha] at h
    · rw [hr] at h
      simp only [Option.some.injEq] at h
      subst h
      simpa using lastOcc_mem hr

/-- The header-hash map built by the compute loop, characterised: the entry
for `k` is the column digest of the last column named `k` (offset by the
running index `idx`), falling back to the initial map when `k` never
occurs. -/
theorem hashHeadersFrom_lookup (rows : List (List String)) :
    ∀ (hs : List String) (idx : Nat) (m : HashMapStr) (k : String),
      hashHeadersFrom rows idx hs m k =
        match lastOcc hs k with
        | some d => some (hash_column k (columnData rows (idx + d)))
        | none => m k
  | [], idx, m, k => rfl
  | h :: rest, idx, m, k => by
    rw [hashHeadersFrom, hashHeadersFrom_lookup rows rest (idx + 1) _ k]
    rcases hr : lastOcc rest k with _ | d
    · by_cases hk : h = k
      · subst hk
        simp [lastOcc, hr, hmInsert]
      · have hk' : ¬k = h := fun hkh => hk hkh.symm
        simp [lastOcc, hr, hmInsert, hk, hk']
    · have : idx + 1 + d = idx + (d + 1) := by omega
      simp [lastOcc, hr, this]

/-- The header-hash entry of a computed table, in terms of `lastOcc`. -/
theorem compute_header_hashes (t : Table) (k : String) :
    (TableHashes.compute t).header_hashes k =
      match lastOcc t.headers k with
      | some d => some (hash_column k (columnData t.rows d))
      | none => none := by
  show hashHeadersFrom t.rows 0 t.headers (fun _ => none) k = _
  rw [hashHeadersFrom_lookup]
  rcases lastOcc t.headers k with _ | d
  · rfl
  · simp

/-- A snapshot built the way `Snapshot::new` builds the hash-relevant fields
(identifier and timestamp synthesis is glue outside the hashing/diffing
core; any values work for the properties below). -/
def mkSnapshot (sid : String) (t : Table) : Snapshot :=
  { id := sid
    timestamp := 0
    message := none
    table := t
    hashes := TableHashes.compute t
    dependencies := [] }

example :
    (SnapshotDiff.compute
      (mkSnapshot "a" ⟨["ID", "Name", "Amount"],
        [["1", "Alice", "100"], ["2", "Bob", "200"]], none⟩)
      (mkSnapshot "b" ⟨["ID", "Name", "Amount"],
        [["1", "Alice", "100"], ["2", "Bob", "250"], ["3", "Carol", "300"]], none⟩)).changes
    = [Change.CellChanged 1 2 "200" "250", Change.RowAdded 2 ["3", "Carol", "300"]] := by
  decide

example :
    (SnapshotDiff.compute
      (mkSnapshot "a" ⟨["ID", "Name", "Amount"],
        [["1", "Alice", "100"], ["2", "Bob", "200"]], none⟩)
      (mkSnapshot "b" ⟨["ID", "Name", "Amount"],
        [["1", "Alice", "100"], ["2", "Bob", "250"], ["3", "Carol", "300"]], none⟩)).summary
    = ⟨1, 0, 1, 0, 0⟩ := by
  decide

/-! ## Claims about the hash engine and verification -/

/-- C2: `Snapshot::verify` recomputes the hashes of the embedded table and
returns `true` iff the recomputed table-level digest equals the stored
`table_hash`; it reads nothing but the table and the stored table-level
digest (in particular not the stored column or row digests), and a mismatch
is the ordinary boolean `false`, not an error (`verify` is a total
`Bool`-valued function). -/
theorem c2_verify_table_hash_only (s : Snapshot) :
    (s.verify = true ↔ (TableHashes.compute s.table).table_hash = s.hashes.table_hash)
    ∧ (∀ s' : Snapshot, s'.table = s.table → s'.hashes.table_hash = s.hashes.table_hash →
        s'.verify = s.verify) := by
  constructor
  · simp [Snapshot.verify]
  · intro s' ht hh
    show decide _ = decide _
    rw [ht, hh]

/-- Witness for C2 at a concrete snapshot: a freshly computed snapshot
verifies, and a snapshot differing only in fields `verify` does not consult
verifies identically. -/
theorem c2_witness :
    (mkSnapshot "s" ⟨["A"], [["x"]], none⟩).verify = true
    ∧ (mkSnapshot "t" ⟨["A"], [["x"]], none⟩).verify
        = (mkSnapshot "s" ⟨["A"], [["x"]], none⟩).verify :=
  ⟨((c2_verify_table_hash_only (mkSnapshot "s" ⟨["A"], [["x"]], none⟩)).1).mpr rfl,
    (c2_verify_table_hash_only (mkSnapshot "s" ⟨["A"], [["x"]], none⟩)).2
      (mkSnapshot "t" ⟨["A"], [["x"]], none⟩) rfl rfl⟩

/-- C7: hashing is deterministic — two invocations of the hash computation
on the same table value yield identical output in all three digest kinds
(table digest, header-name-to-column-digest mapping, row-digest
sequence). -/
theorem c7_hash_determinism (t : Table) (h1 h2 : TableHashes)
    (e1 : h1 = TableHashes.compute t) (e2 : h2 = TableHashes.compute t) :
    h1.table_hash = h2.table_hash ∧ h1.header_hashes = h2.header_hashes
      ∧ h1.row_hashes = h2.row_hashes := by
  subst e1
  subst e2
  exact ⟨rfl, rfl, rfl⟩

/-- Witness for C7 at a concrete table. -/
theorem c7_witness :
    (TableHashes.compute ⟨["A"], [["x"]], none⟩).table_hash
        = (TableHashes.compute ⟨["A"], [["x"]], none⟩).table_hash
    ∧ (TableHashes.compute ⟨["A"], [["x"]], none⟩).header_hashes
        = (TableHashes.compute ⟨["A"], [["x"]], none⟩).header_hashes
    ∧ (TableHashes.compute ⟨["A"], [["x"]], none⟩).row_hashes
        = (TableHashes.compute ⟨["A"], [["x"]], none⟩).row_hashes :=
  c7_hash_determinism ⟨["A"], [["x"]], none⟩ _ _ rfl rfl

/-- C8: when a header name occurs at several positions, the column-digest
mapping holds exactly one entry for that name (the map binds each key at
most once), and its value is the column digest of the last (highest-index)
column bearing that name. -/
theorem c8_duplicate_header_last_wins (t : Table) (name : String) (i j : Nat)
    (_hij : i < j) (_hi : t.headers[i]? = some name) (hj : t.headers[j]? = some name)
    (hlast : ∀ d, j < d → t.headers[d]? ≠ some name) :
    (TableHashes.compute t).header_hashes name
      = some (hash_column name (columnData t.rows j)) := by
  rw [compute_header_hashes, lastOcc_eq_some hj hlast]

/-- Witness for C8: headers `["A", "A"]` retain only column 1's digest. -/
theorem c8_witness :
    (TableHashes.compute ⟨["A", "A"], [["x", "y"]], none⟩).header_hashes "A"
      = some (hash_column "A" (columnData [["x", "y"]] 1)) :=
  c8_duplicate_header_last_wins ⟨["A", "A"], [["x", "y"]], none⟩ "A" 0 1
    (by decide) (by decide) (by decide)
    (by
      intro d hd
      rcases d with _ | _ | d
      · omega
      · omega
      · simp)

/-- C9: the table digest is the raw concatenation of header and cell bytes
with no separators, so two distinct tables that split the same bytes
differently (headers `["ab"]` versus `["a", "b"]`, no rows) share one table
digest. -/
theorem c9_table_hash_collision :
    ∃ t1 t2 : Table, t1 ≠ t2
      ∧ (TableHashes.compute t1).table_hash = (TableHashes.compute t2).table_hash :=
  ⟨⟨["ab"], [], none⟩, ⟨["a", "b"], [], none⟩, by decide, by decide⟩

/-- C10: the hash computation always stores the row-digest field as
present (`some`, never `none` despite the optional type), holding one
digest per row, in row order, each the row digest of the corresponding
row. -/
theorem c10_row_hashes_present (t : Table) :
    (TableHashes.compute t).row_hashes = some (t.rows.map hash_row)
    ∧ (t.rows.map hash_row).length = t.rows.length
    ∧ ∀ (i : Nat), (t.rows.map hash_row)[i]? = (t.rows[i]?).map hash_row :=
  ⟨rfl, by simp, fun i => by simp⟩

/-- The flattened row-major cell stream used inside `hash_table`. -/
theorem hash_table_eq (headers : List String) (rows : List (List String)) :
    hash_table headers rows
      = (headers.map String.data).flatten
          ++ (rows.map (fun row => (row.map String.data).flatten)).flatten := rfl

/-- C1 as frozen fails on tables with duplicate header names: changing the
cell in row 0, column 0 (from `"x"` to the different string `"z"`) of a
table with headers `["A", "A"]` leaves the header-hash entry for that
cell's column name `"A"` unchanged, because the mapping retains only the
digest of the last column named `"A"`. -/
theorem c1_duplicate_header_counterexample :
    ("z" : String) ≠ "x"
    ∧ (⟨["A", "A"], [["x", "y"]], none⟩ : Table).rows[0]? = some ["x", "y"]
    ∧ (["x", "y"] : List String)[0]? = some "x"
    ∧ (⟨["A", "A"], [["x", "y"]], none⟩ : Table).headers[0]? = some "A"
    ∧ (TableHashes.compute (setCell ⟨["A", "A"], [["x", "y"]], none⟩ 0 0 "z")).header_hashes "A"
        = (TableHashes.compute ⟨["A", "A"], [["x", "y"]], none⟩).header_hashes "A" := by
  refine ⟨by decide, by decide, by decide, by decide, ?_⟩
  decide

/-- C1, amended: changing a single existing cell (row `r`, column `c`,
new value `v` distinct from the old) changes the table digest and the
row-`r` digest, and leaves every other row digest unchanged as well as
every header-hash entry keyed by any name other than the header name of
column `c`; additionally, whenever column `c` carries a header name whose
last (highest-index) occurrence is column `c`, the header-hash entry for
that name changes. -/
theorem c1_cell_sensitivity (t : Table) (r c : Nat) (v : String)
    (row : List String) (oldv : String)
    (hrow : t.rows[r]? = some row)
    (hcell : row[c]? = some oldv)
    (hv : v ≠ oldv) :
    (TableHashes.compute (setCell t r c v)).table_hash ≠ (TableHashes.compute t).table_hash
    ∧ ((TableHashes.compute (setCell t r c v)).row_hashes.getD [])[r]?
        ≠ ((TableHashes.compute t).row_hashes.getD [])[r]?
    ∧ (∀ i : Nat, i ≠ r →
        ((TableHashes.compute (setCell t r c v)).row_hashes.getD [])[i]?
          = ((TableHashes.compute t).row_hashes.getD [])[i]?)
    ∧ (∀ k : String, t.headers[c]? ≠ some k →
        (TableHashes.compute (setCell t r c v)).header_hashes k
          = (TableHashes.compute t).header_hashes k)
    ∧ (∀ name : String, t.headers[c]? = some name →
        (∀ d, c < d → t.headers[d]? ≠ some name) →
        (TableHashes.compute (setCell t r c v)).header_hashes name
          ≠ (TableHashes.compute t).header_hashes name) := by
  have hc : c < row.length := (List.getElem?_eq_some.mp hcell).1
  have hrlen : r < t.rows.length := (List.getElem?_eq_some.mp hrow).1
  have hgetD : t.rows.getD r [] = row := by
    rw [List.getD_eq_getElem?_getD, hrow]
    rfl
  have hrows' : (setCell t r c v).rows = t.rows.set r (row.set c v) := by
    show t.rows.set r ((t.rows.getD r []).set c v) = _
    rw [hgetD]
  have hheads' : (setCell t r c v).headers = t.headers := rfl
  -- the changed row's byte stream differs from the old row's
  have hrowflat : (((row.set c v).map String.data).flatten : List Char)
      ≠ ((row.map String.data).flatten : List Char) :=
    flatten_map_set_ne String.data row c v oldv hcell (data_ne_of_ne hv)
  refine ⟨?_, ?_, ?_, ?_, ?_⟩
  · -- table digest changes
    show hash_table (setCell t r c v).headers (setCell t r c v).rows
        ≠ hash_table t.headers t.rows
    rw [hheads', hrows', hash_table_eq, hash_table_eq]
    intro heq
    have hflat := List.append_cancel_left heq
    exact flatten_map_set_ne (fun row => (row.map String.data).flatten)
      t.rows r (row.set c v) row hrow hrowflat hflat
  · -- the changed row's digest changes
    show ((t.rows.set r ((t.rows.getD r []).set c v)).map hash_row)[r]?
        ≠ (t.rows.map hash_row)[r]?
    rw [hgetD, List.map_set,
      List.getElem?_set_self (by simpa using hrlen), List.getElem?_map, hrow]
    intro heq
    exact hrowflat (Option.some.inj heq)
  · -- every other row digest is unchanged
    intro i hi
    show ((t.rows.set r ((t.rows.getD r []).set c v)).map hash_row)[i]?
        = (t.rows.map hash_row)[i]?
    rw [List.map_set, List.getElem?_set_ne (fun h => hi h.symm)]
  · -- every entry keyed by a name other than column c's header is unchanged
    intro k hk
    rw [compute_header_hashes, compute_header_hashes, hheads', hrows']
    rcases hlo : lastOcc t.headers k with _ | d
    · rfl
    · have hd : t.headers[d]? = some k := lastOcc_mem hlo
      have hdc : c ≠ d := fun hdc => hk (hdc ▸ hd)
      have : columnData (t.rows.set r (row.set c v)) d = columnData t.rows d := by
        show (t.rows.set r (row.set c v)).map (fun row => row.getD d "")
            = t.rows.map (fun row => row.getD d "")
        apply map_set_eq_of_getElem? _ _ _ _ _ hrow
        show (row.set c v).getD d "" = row.getD d ""
        rw [List.getD_eq_getElem?_getD, List.getElem?_set_ne hdc, List.getD_eq_getElem?_getD]
      show some (hash_column k (columnData (t.rows.set r (row.set c v)) d))
          = some (hash_column k (columnData t.rows d))
      rw [this]
  · -- the entry of column c's header name changes when c is its last occurrence
    intro name hname hlast
    have hlo : lastOcc t.headers name = some c := lastOcc_eq_some hname hlast
    rw [compute_header_hashes, compute_header_hashes, hheads', hrows', hlo]
    show some (hash_column name (columnData (t.rows.set r (row.set c v)) c))
        ≠ some (hash_column name (columnData t.rows c))
    have hcd : columnData (t.rows.set r (row.set c v)) c = (columnData t.rows c).set r v := by
      show (t.rows.set r (row.set c v)).map (fun row => row.getD c "") = _
      rw [List.map_set]
      have : (row.set c v).getD c "" = v := by
        rw [List.getD_eq_getElem?_getD, List.getElem?_set_self hc]
        rfl
      rw [this]
      rfl
    rw [hcd]
    intro heq
    have hflat := List.append_cancel_left (Option.some.inj heq)
    have hcol_r : (columnData t.rows c)[r]? = some oldv := by
      show (t.rows.map (fun row => row.getD c ""))[r]? = some oldv
      rw [List.getElem?_map, hrow]
      show some (row.getD c "") = some oldv
      rw [List.getD_eq_getElem?_getD, hcell]
      rfl
    exact flatten_map_set_ne String.data (columnData t.rows c) r v oldv
      hcol_r (data_ne_of_ne hv) hflat

/-- Witness for the amended C1 at a concrete table. -/
theorem c1_witness :
    (TableHashes.compute (setCell ⟨["A"], [["x"]], none⟩ 0 0 "y")).table_hash
        ≠ (TableHashes.compute ⟨["A"], [["x"]], none⟩).table_hash
    ∧ ((TableHashes.compute (setCell ⟨["A"], [["x"]], none⟩ 0 0 "y")).row_hashes.getD [])[0]?
        ≠ ((TableHashes.compute ⟨["A"], [["x"]], none⟩).row_hashes.getD [])[0]?
    ∧ (∀ i : Nat, i ≠ 0 →
        ((TableHashes.compute (setCell ⟨["A"], [["x"]], none⟩ 0 0 "y")).row_hashes.getD [])[i]?
          = ((TableHashes.compute ⟨["A"], [["x"]], none⟩).row_hashes.getD [])[i]?)
    ∧ (∀ k : String, (⟨["A"], [["x"]], none⟩ : Table).headers[0]? ≠ some k →
        (TableHashes.compute (setCell ⟨["A"], [["x"]], none⟩ 0 0 "y")).header_hashes k
          = (TableHashes.compute ⟨["A"], [["x"]], none⟩).header_hashes k)
    ∧ (∀ name : String, (⟨["A"], [["x"]], none⟩ : Table).headers[0]? = some name →
        (∀ d, 0 < d → (⟨["A"], [["x"]], none⟩ : Table).headers[d]? ≠ some name) →
        (TableHashes.compute (setCell ⟨["A"], [["x"]], none⟩ 0 0 "y")).header_hashes name
          ≠ (TableHashes.compute ⟨["A"], [["x"]], none⟩).header_hashes name) :=
  c1_cell_sensitivity ⟨["A"], [["x"]], none⟩ 0 0 "y" ["x"] "x"
    (by decide) (by decide) (by decide)

/-! ## Diff-engine lemmas -/

/-- The row loop's added case fires at `i`: no source row, a target row. -/
def rowAddedAt (fromRows toRows : List (List String)) (i : Nat) : Bool :=
  (fromRows[i]?).isNone && (toRows[i]?).isSome

/-- The row loop's removed case fires at `i`: a source row, no target row. -/
def rowRemovedAt (fromRows toRows : List (List String)) (i : Nat) : Bool :=
  (fromRows[i]?).isSome && (toRows[i]?).isNone

/-- The row loop's modified case fires at `i`: both rows exist and are
cell-by-cell unequal. -/
def rowModifiedAt (fromRows toRows : List (List String)) (i : Nat) : Bool :=
  match fromRows[i]?, toRows[i]? with
  | some a, some b => decide (a ≠ b)
  | _, _ => false

/-- The change records the row loop emits at index `i`. -/
def rowChangesAt (fromRows toRows : List (List String)) (i : Nat) : List Change :=
  match fromRows[i]?, toRows[i]? with
  | none, some row => [Change.RowAdded i row]
  | some row, none => [Change.RowRemoved i row]
  | some a, some b => if a ≠ b then cellChanges i a b else []
  | none, none => []

/-- One row-loop iteration, decomposed into emitted changes and counter
bumps. -/
theorem rowStep_eq (fromRows toRows : List (List String)) (st : DiffState) (i : Nat) :
    rowStep fromRows toRows st i =
      { changes := st.changes ++ rowChangesAt fromRows toRows i
        summary :=
          { rows_added := st.summary.rows_added
              + (if rowAddedAt fromRows toRows i then 1 else 0)
            rows_removed := st.summary.rows_removed
              + (if rowRemovedAt fromRows toRows i then 1 else 0)
            rows_modified := st.summary.rows_modified
              + (if rowModifiedAt fromRows toRows i then 1 else 0)
            columns_added := st.summary.columns_added
            columns_removed := st.summary.columns_removed } } := by
  obtain ⟨cs, ra, rr, rm, ca, cr⟩ := st
  unfold rowStep rowChangesAt rowAddedAt rowRemovedAt rowModifiedAt
  rcases hf : fromRows[i]? with _ | a <;> rcases ht : toRows[i]? with _ | b
  · simp
  · simp
  · simp
  · by_cases hab : a = b
    · simp [hab]
    · simp [hab]

/-- The row loop appends, per index, exactly the records of
`rowChangesAt`. -/
theorem rowFold_changes (fromRows toRows : List (List String)) :
    ∀ (l : List Nat) (st : DiffState),
      (l.foldl (rowStep fromRows toRows) st).changes
        = st.changes ++ (l.map (rowChangesAt fromRows toRows)).flatten
  | [], st => by simp
  | i :: l, st => by
    rw [List.foldl_cons, rowFold_changes fromRows toRows l _, rowStep_eq]
    simp

/-- The row loop's effect on the five counters. -/
theorem rowFold_summary (fromRows toRows : List (List String)) :
    ∀ (l : List Nat) (st : DiffState),
      (l.foldl (rowStep fromRows toRows) st).summary
        = { rows_added := st.summary.rows_added + l.countP (rowAddedAt fromRows toRows)
            rows_removed := st.summary.rows_removed + l.countP (rowRemovedAt fromRows toRows)
            rows_modified := st.summary.rows_modified + l.countP (rowModifiedAt fromRows toRows)
            columns_added := st.summary.columns_added
            columns_removed := st.summary.columns_removed }
  | [], st => by simp
  | i :: l, st => by
    rw [List.foldl_cons, rowFold_summary fromRows toRows l _, rowStep_eq]
    simp [List.countP_cons, DiffSummary.mk.injEq]
    omega

/-- The column-added loop appends exactly one `ColumnAdded` per
target-enumerated header missing from the source headers. -/
theorem colAddedFold_changes (fh : List String) :
    ∀ (l : List (Nat × String)) (st : DiffState),
      (l.foldl (colAddedStep fh) st).changes
        = st.changes
            ++ (l.filter (fun p => decide (p.2 ∉ fh))).map (fun p => Change.ColumnAdded p.2 p.1)
  | [], st => by simp
  | p :: l, st => by
    rw [List.foldl_cons, colAddedFold_changes fh l _]
    by_cases hp : p.2 ∈ fh
    · simp [colAddedStep, hp, List.filter_cons]
    · simp [colAddedStep, hp, List.filter_cons]

/-- The column-added loop's effect on the counters. -/
theorem colAddedFold_summary (fh : List String) :
    ∀ (l : List (Nat × String)) (st : DiffState),
      (l.foldl (colAddedStep fh) st).summary
        = { st.summary with
            columns_added := st.summary.columns_added + l.countP (fun p => decide (p.2 ∉ fh)) }
  | [], st => by simp
  | p :: l, st => by
    rw [List.foldl_cons, colAddedFold_summary fh l _]
    by_cases hp : p.2 ∈ fh
    · simp [colAddedStep, hp, List.countP_cons]
    · simp [colAddedStep, hp, List.countP_cons]
      omega

/-- The column-removed loop appends exactly one `ColumnRemoved` per
source-enumerated header missing from the target headers. -/
theorem colRemovedFold_changes (th : List String) :
    ∀ (l : List (Nat × String)) (st : DiffState),
      (l.foldl (colRemovedStep th) st).changes
        = st.changes
            ++ (l.filter (fun p => decide (p.2 ∉ th))).map (fun p => Change.ColumnRemoved p.2 p.1)
  | [], st => by simp
  | p :: l, st => by
    rw [List.foldl_cons, colRemovedFold_changes th l _]
    by_cases hp : p.2 ∈ th
    · simp [colRemovedStep, hp, List.filter_cons]
    · simp [colRemovedStep, hp, List.filter_cons]

/-- The column-removed loop's effect on the counters. -/
theorem colRemovedFold_summary (th : List String) :
    ∀ (l : List (Nat × String)) (st : DiffState),
      (l.foldl (colRemovedStep th) st).summary
        = { st.summary with
            columns_removed := st.summary.columns_removed + l.countP (fun p => decide (p.2 ∉ th)) }
  | [], st => by simp
  | p :: l, st => by
    rw [List.foldl_cons, colRemovedFold_summary th l _]
    by_cases hp : p.2 ∈ th
    · simp [colRemovedStep, hp, List.countP_cons]
    · simp [colRemovedStep, hp, List.countP_cons]
      omega

/-- The loop bound of the positional row comparison. -/
def maxRowsOf (a b : Snapshot) : Nat :=
  max a.table.rows.length b.table.rows.length

/-- `SnapshotDiff::compute`, characterised: the change sequence is the
column-added records, then the column-removed records, then the per-index
row records in ascending index order. -/
theorem compute_changes_eq (a b : Snapshot) :
    (SnapshotDiff.compute a b).changes =
      ((b.table.headers.enum.filter (fun p => decide (p.2 ∉ a.table.headers))).map
          (fun p => Change.ColumnAdded p.2 p.1))
        ++ ((a.table.headers.enum.filter (fun p => decide (p.2 ∉ b.table.headers))).map
          (fun p => Change.ColumnRemoved p.2 p.1))
        ++ ((List.range (maxRowsOf a b)).map
          (rowChangesAt a.table.rows b.table.rows)).flatten := by
  show ((List.range (maxRowsOf a b)).foldl (rowStep a.table.rows b.table.rows)
      (a.table.headers.enum.foldl (colRemovedStep b.table.headers)
        (b.table.headers.enum.foldl (colAddedStep a.table.headers)
          ⟨[], 0, 0, 0, 0, 0⟩))).changes = _
  rw [rowFold_changes, colRemovedFold_changes, colAddedFold_changes]
  simp

/-- `SnapshotDiff::compute`, characterised: each of the five counters
counts the indices at which the corresponding case fired. -/
theorem compute_summary_eq (a b : Snapshot) :
    (SnapshotDiff.compute a b).summary =
      { rows_added := (List.range (maxRowsOf a b)).countP
          (rowAddedAt a.table.rows b.table.rows)
        rows_removed := (List.range (maxRowsOf a b)).countP
          (rowRemovedAt a.table.rows b.table.rows)
        rows_modified := (List.range (maxRowsOf a b)).countP
          (rowModifiedAt a.table.rows b.table.rows)
        columns_added := b.table.headers.enum.countP (fun p => decide (p.2 ∉ a.table.headers))
        columns_removed := a.table.headers.enum.countP
          (fun p => decide (p.2 ∉ b.table.headers)) } := by
  show ((List.range (maxRowsOf a b)).foldl (rowStep a.table.rows b.table.rows)
      (a.table.headers.enum.foldl (colRemovedStep b.table.headers)
        (b.table.headers.enum.foldl (colAddedStep a.table.headers)
          ⟨[], 0, 0, 0, 0, 0⟩))).summary = _
  rw [rowFold_summary, colRemovedFold_summary, colAddedFold_summary]
  simp

/-- The second component of an enumerated entry is a member of the
underlying list. -/
theorem snd_mem_of_mem_enum {hs : List String} {p : Nat × String}
    (hp : p ∈ hs.enum) : p.2 ∈ hs := by
  obtain ⟨i, x⟩ := p
  obtain ⟨-, hlt, hx⟩ := List.mem_enumFrom hp
  show x ∈ hs
  rw [hx]
  exact List.getElem_mem _

/-- Comparing identical rows at any index emits nothing. -/
theorem rowChangesAt_self (rows : List (List String)) (i : Nat) :
    rowChangesAt rows rows i = [] := by
  unfold rowChangesAt
  rcases h : rows[i]? with _ | a
  · rfl
  · simp

/-- C5: diffing a snapshot against itself yields an empty change sequence
and an all-zero summary. -/
theorem c5_diff_identity (s : Snapshot) :
    (SnapshotDiff.compute s s).changes = []
    ∧ (SnapshotDiff.compute s s).summary = ⟨0, 0, 0, 0, 0⟩ := by
  have hfil : s.table.headers.enum.filter (fun p => decide (p.2 ∉ s.table.headers)) = [] := by
    rw [List.filter_eq_nil_iff]
    intro p hp
    simp [snd_mem_of_mem_enum hp]
  have hcount : s.table.headers.enum.countP (fun p => decide (p.2 ∉ s.table.headers)) = 0 := by
    rw [List.countP_eq_zero]
    intro p hp
    simp [snd_mem_of_mem_enum hp]
  constructor
  · rw [compute_changes_eq, hfil]
    simp only [List.map_nil, List.nil_append]
    rw [List.flatten_eq_nil_iff]
    intro l hl
    obtain ⟨i, -, rfl⟩ := List.mem_map.mp hl
    exact rowChangesAt_self s.table.rows i
  · rw [compute_summary_eq, hcount]
    have hadd : ∀ i, rowAddedAt s.table.rows s.table.rows i = false := by
      intro i
      unfold rowAddedAt
      rcases h : s.table.rows[i]? with _ | a <;> simp
    have hrem : ∀ i, rowRemovedAt s.table.rows s.table.rows i = false := by
      intro i
      unfold rowRemovedAt
      rcases h : s.table.rows[i]? with _ | a <;> simp
    have hmod : ∀ i, rowModifiedAt s.table.rows s.table.rows i = false := by
      intro i
      unfold rowModifiedAt
      rcases h : s.table.rows[i]? with _ | a <;> simp
    simp [List.countP_eq_zero, hadd, hrem, hmod]

/-- C6: the rows-added count of `compute(A, B)` is the rows-removed count
of `compute(B, A)`, and vice versa. -/
theorem c6_diff_count_symmetry (a b : Snapshot) :
    (SnapshotDiff.compute a b).summary.rows_added
        = (SnapshotDiff.compute b a).summary.rows_removed
    ∧ (SnapshotDiff.compute a b).summary.rows_removed
        = (SnapshotDiff.compute b a).summary.rows_added := by
  rw [compute_summary_eq, compute_summary_eq]
  have hmax : maxRowsOf b a = maxRowsOf a b := Nat.max_comm _ _
  constructor
  · show (List.range (maxRowsOf a b)).countP (rowAddedAt a.table.rows b.table.rows)
        = (List.range (maxRowsOf b a)).countP (rowRemovedAt b.table.rows a.table.rows)
    rw [hmax]
    apply List.countP_congr
    intro i _
    unfold rowAddedAt rowRemovedAt
    rw [Bool.and_comm]
  · show (List.range (maxRowsOf a b)).countP (rowRemovedAt a.table.rows b.table.rows)
        = (List.range (maxRowsOf b a)).countP (rowAddedAt b.table.rows a.table.rows)
    rw [hmax]
    apply List.countP_congr
    intro i _
    unfold rowAddedAt rowRemovedAt
    rw [Bool.and_comm]

/-- Does a change record concern row index `i`? -/
def touchesRow (i : Nat) : Change → Bool
  | Change.RowAdded j _ => decide (j = i)
  | Change.RowRemoved j _ => decide (j = i)
  | Change.CellChanged r _ _ _ => decide (r = i)
  | _ => false

/-- Every record the cell loop emits is a `CellChanged` for the loop's row,
with a column index at least the running enumeration index. -/
theorem cellChangesAux_shape (i : Nat) :
    ∀ (ps : List (String × String)) (s : Nat) (c : Change), c ∈ cellChangesAux i s ps →
      ∃ col o n, c = Change.CellChanged i col o n ∧ s ≤ col
  | [], s, c, hc => by simp [cellChangesAux] at hc
  | (o, n) :: rest, s, c, hc => by
    rw [cellChangesAux] at hc
    by_cases hon : o = n
    · simp only [hon, ne_eq, not_true_eq_false, if_false] at hc
      obtain ⟨col, o', n', hshape, hcol⟩ := cellChangesAux_shape i rest (s + 1) c hc
      exact ⟨col, o', n', hshape, by omega⟩
    · simp only [ne_eq, hon, not_false_eq_true, if_true, List.mem_cons] at hc
      rcases hc with rfl | hc
      · exact ⟨s, o, n, rfl, Nat.le_refl s⟩
      · obtain ⟨col, o', n', hshape, hcol⟩ := cellChangesAux_shape i rest (s + 1) c hc
        exact ⟨col, o', n', hshape, by omega⟩

/-- Membership in the cell loop's output: exactly the offset positions
whose two cells differ. -/
theorem mem_cellChangesAux (i : Nat) :
    ∀ (ps : List (String × String)) (s col : Nat) (a b : String),
      (Change.CellChanged i col a b ∈ cellChangesAux i s ps ↔
        ∃ j, col = s + j ∧ ps[j]? = some (a, b) ∧ a ≠ b)
  | [], s, col, a, b => by simp [cellChangesAux]
  | (o, n) :: rest, s, col, a, b => by
    rw [cellChangesAux]
    by_cases hon : o = n
    · simp only [hon, ne_eq, not_true_eq_false, if_false]
      rw [mem_cellChangesAux i rest (s + 1) col a b]
      constructor
      · rintro ⟨j, rfl, hj, hab⟩
        exact ⟨j + 1, by omega, by simpa using hj, hab⟩
      · rintro ⟨j, rfl, hj, hab⟩
        rcases j with _ | j
        · simp only [List.getElem?_cons_zero, Option.some.injEq, Prod.mk.injEq] at hj
          rcases hj with ⟨rfl, rfl⟩
          exact absurd rfl hab
        · exact ⟨j, by omega, by simpa using hj, hab⟩
    · simp only [ne_eq, hon, not_false_eq_true, if_true, List.mem_cons]
      rw [mem_cellChangesAux i rest (s + 1) col a b]
      constructor
      · rintro (heq | ⟨j, rfl, hj, hab⟩)
        · obtain ⟨-, rfl, rfl, rfl⟩ := Change.CellChanged.inj heq
          exact ⟨0, by omega, by simp, hon⟩
        · exact ⟨j + 1, by omega, by simpa using hj, hab⟩
      · rintro ⟨j, rfl, hj, hab⟩
        rcases j with _ | j
        · simp only [List.getElem?_cons_zero, Option.some.injEq, Prod.mk.injEq] at hj
          rcases hj with ⟨rfl, rfl⟩
          exact Or.inl rfl
        · right
          exact ⟨j, by omega, by simpa using hj, hab⟩

/-- Zip lookup in terms of the two lists' lookups. -/
theorem zip_getElem?_eq_some {α β : Type} :
    ∀ (l1 : List α) (l2 : List β) (j : Nat) (a : α) (b : β),
      ((l1.zip l2)[j]? = some (a, b) ↔ l1[j]? = some a ∧ l2[j]? = some b)
  | [], l2, j, a, b => by simp
  | x :: l1, [], j, a, b => by simp
  | x :: l1, y :: l2, 0, a, b => by
    simp [List.zip_cons_cons, Prod.mk.injEq]
  | x :: l1, y :: l2, j + 1, a, b => by
    simp only [List.zip_cons_cons, List.getElem?_cons_succ]
    exact zip_getElem?_eq_some l1 l2 j a b

/-- Filtering a change list for row `i` drops everything when no element
touches row `i`. -/
theorem flatten_map_filter_single {β : Type} (g : Nat → List β) (p : β → Bool) :
    ∀ (l : List Nat) (i : Nat), i ∈ l → l.Nodup →
      (∀ j ∈ l, j ≠ i → (g j).filter p = []) →
      ((l.map g).flatten).filter p = (g i).filter p
  | [], i, hi, _, _ => by simp at hi
  | j :: l, i, hi, hnd, hz => by
    have hnil : ∀ (m : List Nat), (∀ x ∈ m, (g x).filter p = []) →
        ((m.map g).flatten).filter p = [] := by
      intro m
      induction m with
      | nil => simp
      | cons x m ih =>
        intro hm
        simp only [List.map_cons, List.flatten_cons, List.filter_append]
        rw [hm x (by simp), ih (fun y hy => hm y (by simp [hy]))]
        rfl
    simp only [List.map_cons, List.flatten_cons, List.filter_append]
    rcases List.mem_cons.mp hi with rfl | hi'
    · have hrest : ∀ x ∈ l, (g x).filter p = [] := by
        intro x hx
        exact hz x (by simp [hx]) (fun hxj => (List.nodup_cons.mp hnd).1 (hxj ▸ hx))
      rw [hnil l hrest, List.append_nil]
    · rw [hz j (by simp) (fun hji => (List.nodup_cons.mp hnd).1 (hji ▸ hi')),
        flatten_map_filter_single g p l i hi' (List.nodup_cons.mp hnd).2
          (fun x hx hxi => hz x (by simp [hx]) hxi)]
      rfl

/-- Records emitted for row index `jj` never touch a different row `i`. -/
theorem rowChangesAt_filter_ne (fromRows toRows : List (List String)) (jj i : Nat)
    (hne : jj ≠ i) : (rowChangesAt fromRows toRows jj).filter (touchesRow i) = [] := by
  rw [List.filter_eq_nil_iff]
  intro c hc
  unfold rowChangesAt at hc
  rcases hf : fromRows[jj]? with _ | fr <;> rcases ht : toRows[jj]? with _ | tr <;>
    rw [hf, ht] at hc
  · simp at hc
  · simp only [List.mem_singleton] at hc
    subst hc
    simp [touchesRow, hne]
  · simp only [List.mem_singleton] at hc
    subst hc
    simp [touchesRow, hne]
  · by_cases hftr : fr = tr
    · simp [hftr] at hc
    · simp only [ne_eq, hftr, not_false_eq_true, if_true] at hc
      obtain ⟨col, o, n, rfl, -⟩ := cellChangesAux_shape jj _ _ c hc
      simp [touchesRow, hne]

/-- Every record of the cell loop touches its own row. -/
theorem cellChanges_filter_self (i : Nat) (fr tr : List String) :
    (cellChanges i fr tr).filter (touchesRow i) = cellChanges i fr tr := by
  rw [List.filter_eq_self]
  intro c hc
  obtain ⟨col, o, n, rfl, -⟩ := cellChangesAux_shape i _ _ c hc
  simp [touchesRow]

/-- C3: at a row index where both tables have a row, the diff engine bumps
the modified counter once per differing row (the counter is the number of
indices whose rows both exist and differ), and the records it emits for
that row are exactly one `CellChanged row col old new` per column position
`col` at which the zipped source and target cells differ; for equal rows it
emits nothing touching that index. -/
theorem c3_modified_row_cell_changes (a b : Snapshot) (i : Nat) (fr tr : List String)
    (hf : a.table.rows[i]? = some fr) (ht : b.table.rows[i]? = some tr) :
    (SnapshotDiff.compute a b).summary.rows_modified
        = (List.range (maxRowsOf a b)).countP (rowModifiedAt a.table.rows b.table.rows)
    ∧ (fr ≠ tr →
        (SnapshotDiff.compute a b).changes.filter (touchesRow i) = cellChanges i fr tr)
    ∧ (fr = tr → (SnapshotDiff.compute a b).changes.filter (touchesRow i) = [])
    ∧ (∀ (col : Nat) (o n : String), Change.CellChanged i col o n ∈ cellChanges i fr tr ↔
        (fr[col]? = some o ∧ tr[col]? = some n ∧ o ≠ n)) := by
  have hi : i ∈ List.range (maxRowsOf a b) := by
    have : i < a.table.rows.length := (List.getElem?_eq_some.mp hf).1
    exact List.mem_range.mpr (by unfold maxRowsOf; omega)
  have hfilter : (SnapshotDiff.compute a b).changes.filter (touchesRow i)
      = (rowChangesAt a.table.rows b.table.rows i).filter (touchesRow i) := by
    rw [compute_changes_eq, List.filter_append, List.filter_append]
    have h1 : ∀ (l : List (Nat × String)),
        ((l.filter (fun p => decide (p.2 ∉ a.table.headers))).map
          (fun p => Change.ColumnAdded p.2 p.1)).filter (touchesRow i) = [] := by
      intro l
      rw [List.filter_eq_nil_iff]
      intro c hc
      obtain ⟨p, -, rfl⟩ := List.mem_map.mp hc
      simp [touchesRow]
    have h2 : ∀ (l : List (Nat × String)),
        ((l.filter (fun p => decide (p.2 ∉ b.table.headers))).map
          (fun p => Change.ColumnRemoved p.2 p.1)).filter (touchesRow i) = [] := by
      intro l
      rw [List.filter_eq_nil_iff]
      intro c hc
      obtain ⟨p, -, rfl⟩ := List.mem_map.mp hc
      simp [touchesRow]
    rw [h1, h2,
      flatten_map_filter_single (rowChangesAt a.table.rows b.table.rows) (touchesRow i)
        (List.range (maxRowsOf a b)) i hi (List.nodup_range _)
        (fun j _ hj => rowChangesAt_filter_ne a.table.rows b.table.rows j i hj)]
    rfl
  refine ⟨?_, ?_, ?_, ?_⟩
  · rw [compute_summary_eq]
  · intro hne
    rw [hfilter]
    unfold rowChangesAt
    rw [hf, ht]
    simp only [ne_eq, hne, not_false_eq_true, if_true]
    exact cellChanges_filter_self i fr tr
  · intro heq
    rw [hfilter]
    unfold rowChangesAt
    rw [hf, ht]
    simp [heq]
  · intro col o n
    show Change.CellChanged i col o n ∈ cellChangesAux i 0 (fr.zip tr) ↔ _
    rw [mem_cellChangesAux]
    constructor
    · rintro ⟨j, rfl, hj, hon⟩
      obtain ⟨hj1, hj2⟩ := (zip_getElem?_eq_some fr tr j o n).mp hj
      exact ⟨by simpa using hj1, by simpa using hj2, hon⟩
    · rintro ⟨hj1, hj2, hon⟩
      exact ⟨col, by omega,
        (zip_getElem?_eq_some fr tr col o n).mpr ⟨hj1, hj2⟩, hon⟩

/-- Witness for C3 on the specification's concrete scenario: row 1 of the
source ("Bob", amount 200) differs from the target (amount 250) in exactly
the one cell at column 2. -/
theorem c3_witness :
    (SnapshotDiff.compute
        (mkSnapshot "a" ⟨["ID", "Name", "Amount"],
          [["1", "Alice", "100"], ["2", "Bob", "200"]], none⟩)
        (mkSnapshot "b" ⟨["ID", "Name", "Amount"],
          [["1", "Alice", "100"], ["2", "Bob", "250"], ["3", "Carol", "300"]], none⟩)
      ).changes.filter (touchesRow 1)
      = cellChanges 1 ["2", "Bob", "200"] ["2", "Bob", "250"] :=
  (c3_modified_row_cell_changes
      (mkSnapshot "a" ⟨["ID", "Name", "Amount"],
        [["1", "Alice", "100"], ["2", "Bob", "200"]], none⟩)
      (mkSnapshot "b" ⟨["ID", "Name", "Amount"],
        [["1", "Alice", "100"], ["2", "Bob", "250"], ["3", "Carol", "300"]], none⟩)
      1 ["2", "Bob", "200"] ["2", "Bob", "250"]
      (by decide) (by decide)).2.1 (by decide)

/-- Phase of a change in the emitted sequence: column-added records come
first, then column-removed records, then row-level records. -/
def changePhase : Change → Nat
  | Change.ColumnAdded _ _ => 0
  | Change.ColumnRemoved _ _ => 1
  | _ => 2

/-- Row index of a row-level change (0 for column-level changes). -/
def changeRow : Change → Nat
  | Change.RowAdded j _ => j
  | Change.RowRemoved j _ => j
  | Change.CellChanged r _ _ _ => r
  | _ => 0

/-- Column index of a cell change (0 otherwise). -/
def changeCol : Change → Nat
  | Change.CellChanged _ c _ _ => c
  | _ => 0

/-- The claimed ordering between two records appearing in this order: the
phase never decreases, and among row-level records the row index increases,
with the column index increasing inside one row's contiguous block. -/
def changeBefore (x y : Change) : Prop :=
  changePhase x ≤ changePhase y
  ∧ (changePhase x = 2 → changePhase y = 2 →
      (changeRow x < changeRow y ∨ (changeRow x = changeRow y ∧ changeCol x < changeCol y)))

/-- The cell loop's records are pairwise ordered: same phase and row,
strictly ascending column indices. -/
theorem cellChangesAux_pairwise (i : Nat) :
    ∀ (ps : List (String × String)) (s : Nat), (cellChangesAux i s ps).Pairwise changeBefore
  | [], _ => List.Pairwise.nil
  | (o, n) :: rest, s => by
    rw [cellChangesAux]
    by_cases hon : o = n
    · simp only [hon, ne_eq, not_true_eq_false, if_false]
      exact cellChangesAux_pairwise i rest (s + 1)
    · simp only [ne_eq, hon, not_false_eq_true, if_true]
      refine List.Pairwise.cons ?_ (cellChangesAux_pairwise i rest (s + 1))
      intro c hc
      obtain ⟨col, o', n', rfl, hcol⟩ := cellChangesAux_shape i rest (s + 1) c hc
      exact ⟨Nat.le_refl _, fun _ _ => Or.inr ⟨rfl, Nat.lt_of_succ_le hcol⟩⟩

/-- Every record emitted for row index `j` is row-level with row `j`. -/
theorem rowChangesAt_phase_row (fromRows toRows : List (List String)) (j : Nat) :
    ∀ c ∈ rowChangesAt fromRows toRows j, changePhase c = 2 ∧ changeRow c = j := by
  intro c hc
  unfold rowChangesAt at hc
  rcases hf : fromRows[j]? with _ | fr <;> rcases ht : toRows[j]? with _ | tr <;>
    rw [hf, ht] at hc
  · simp at hc
  · simp only [List.mem_singleton] at hc
    subst hc
    exact ⟨rfl, rfl⟩
  · simp only [List.mem_singleton] at hc
    subst hc
    exact ⟨rfl, rfl⟩
  · by_cases hftr : fr = tr
    · simp [hftr] at hc
    · simp only [ne_eq, hftr, not_false_eq_true, if_true] at hc
      obtain ⟨col, o, n, rfl, -⟩ := cellChangesAux_shape j _ _ c hc
      exact ⟨rfl, rfl⟩

/-- One row's block of records is internally ordered. -/
theorem rowChangesAt_pairwise (fromRows toRows : List (List String)) (j : Nat) :
    (rowChangesAt fromRows toRows j).Pairwise changeBefore := by
  unfold rowChangesAt
  rcases fromRows[j]? with _ | fr <;> rcases toRows[j]? with _ | tr
  · exact List.Pairwise.nil
  · simp
  · simp
  · by_cases hftr : fr = tr
    · simp [hftr]
    · simp only [ne_eq, hftr, not_false_eq_true, if_true]
      exact cellChangesAux_pairwise j _ 0

/-- C4: in the change sequence of `compute`, all `ColumnAdded` records
precede all `ColumnRemoved` records, which precede all row-level records;
row-level records appear in ascending row-index order, and the
`CellChanged` records of one modified row appear contiguously in ascending
column-index order. -/
theorem c4_change_ordering (a b : Snapshot) :
    (SnapshotDiff.compute a b).changes.Pairwise changeBefore := by
  have hple : ∀ c : Change, changePhase c ≤ 2 := by
    intro c
    cases c <;> simp [changePhase]
  rw [compute_changes_eq, List.pairwise_append]
  refine ⟨?_, ?_, ?_⟩
  · rw [List.pairwise_append]
    refine ⟨?_, ?_, ?_⟩
    · apply List.pairwise_of_forall_mem_list
      intro x hx y hy
      obtain ⟨p, -, rfl⟩ := List.mem_map.mp hx
      obtain ⟨q, -, rfl⟩ := List.mem_map.mp hy
      exact ⟨Nat.le_refl _, fun h _ => by simp [changePhase] at h⟩
    · apply List.pairwise_of_forall_mem_list
      intro x hx y hy
      obtain ⟨p, -, rfl⟩ := List.mem_map.mp hx
      obtain ⟨q, -, rfl⟩ := List.mem_map.mp hy
      exact ⟨Nat.le_refl _, fun h _ => by simp [changePhase] at h⟩
    · intro x hx y hy
      obtain ⟨p, -, rfl⟩ := List.mem_map.mp hx
      obtain ⟨q, -, rfl⟩ := List.mem_map.mp hy
      exact ⟨Nat.zero_le _, fun h _ => by simp [changePhase] at h⟩
  · rw [List.pairwise_flatten]
    constructor
    · intro l hl
      obtain ⟨j, -, rfl⟩ := List.mem_map.mp hl
      exact rowChangesAt_pairwise a.table.rows b.table.rows j
    · rw [List.pairwise_map]
      refine List.Pairwise.imp ?_ (List.pairwise_lt_range (maxRowsOf a b))
      intro j1 j2 hj x hx y hy
      obtain ⟨hp1, hr1⟩ := rowChangesAt_phase_row _ _ j1 x hx
      obtain ⟨hp2, hr2⟩ := rowChangesAt_phase_row _ _ j2 y hy
      exact ⟨by omega, fun _ _ => Or.inl (by omega)⟩
  · intro x hx y hy
    obtain ⟨l, hl, hyl⟩ := List.mem_flatten.mp hy
    obtain ⟨j, -, rfl⟩ := List.mem_map.mp hl
    obtain ⟨hp2, -⟩ := rowChangesAt_phase_row _ _ j y hyl
    have hx2 : changePhase x ≠ 2 := by
      rcases List.mem_append.mp hx with hx' | hx'
      · obtain ⟨p, -, rfl⟩ := List.mem_map.mp hx'
        simp [changePhase]
      · obtain ⟨p, -, rfl⟩ := List.mem_map.mp hx'
        simp [changePhase]
    exact ⟨by have := hple x; omega, fun h _ => absurd h hx2⟩
